import Mathlib

/-!
Shallow embedding of the wordle-solver (src/wordle.py).

The program keeps a list of candidate words and an ordered history of
constraints.  Each feedback atom of a guess is compiled into one of four
constraint variants (GreenConstraint, YellowConstraint,
NoLetterPresentConstraint, LetterNotRepeatedConstraint); `do_word` derives
the constraints of a guess left to right, appending each to the history and
filtering the candidate list immediately (`apply_new_constraint`).

Words and Python strings are embedded as `List Char`; validation failures
(Python `raise ValueError`) are embedded as `Except` errors, with the state
at the moment of the raise kept explicit so that partial mutation of the
session state is observable.
-/

/-- Python `string.ascii_letters`: lowercase then uppercase ASCII letters. -/
def ascii_letters : List Char :=
  "abcdefghijklmnopqrstuvwxyzABCDEFGHIJKLMNOPQRSTUVWXYZ".toList

/-- Python substring containment `needle in hay` for strings: `needle` occurs
as a contiguous substring of `hay` (the empty string is contained in every
string).  This is the semantics of `letter not in string.ascii_letters` when
`letter` is an arbitrary string. -/
def pyInStr (needle : List Char) : List Char → Bool
  | [] => needle.isEmpty
  | c :: rest => needle.isPrefixOf (c :: rest) || pyInStr needle rest

/-- The validation errors the program raises (each `raise ValueError(...)`
site of src/wordle.py gets one variant). -/
inductive WErr where
  | indexOutOfBounds (index : Int)
  | invalidLetter (letter : Char)
  | invalidLetterString (letter : List Char)
  | wordLengthMismatch
  | hintsLengthMismatch
  | invalidHintType (hint : Char) (pos : Nat)
deriving DecidableEq, Repr

/-- The four constraint variants of src/wordle.py.  The stored letter is the
constructor argument case-folded to lowercase (constructors below). -/
inductive Constraint where
  | green (index : Nat) (letter : Char)
  | yellow (index : Nat) (letter : Char)
  | noLetterPresent (letter : Char)
  | letterNotRepeated (letter : Char)
deriving DecidableEq, Repr

/-- The `matches` predicate of each constraint class.
`GreenConstraint.matches`: `word[index] == letter`;
`YellowConstraint.matches`: `(letter in word) and (word[index] != letter)`;
`NoLetterPresentConstraint.matches`: `letter not in word`;
`LetterNotRepeatedConstraint.matches`: `word.count(letter) < 2`.
Out-of-range positional access is totalised with a default character; see
`Constraint.matchesChecked` for the version with Python's IndexError made
explicit, and the safety theorem relating the two. -/
def Constraint.matches : Constraint → List Char → Bool
  | .green index letter, word => word.getD index ' ' == letter
  | .yellow index letter, word =>
      word.contains letter && word.getD index ' ' != letter
  | .noLetterPresent letter, word => ! word.contains letter
  | .letterNotRepeated letter, word => decide (word.count letter < 2)

/-- The `matches` predicates with Python's IndexError made explicit: `none`
models an uncaught exception on out-of-range indexing.  Note Python's
short-circuit in `YellowConstraint.matches`: when `letter in word` is false
the indexing `word[index]` is never evaluated. -/
def Constraint.matchesChecked : Constraint → List Char → Option Bool
  | .green index letter, word => (word.get? index).map (fun ch => ch == letter)
  | .yellow index letter, word =>
      if word.contains letter then (word.get? index).map (fun ch => ch != letter)
      else some false
  | .noLetterPresent letter, word => some (! word.contains letter)
  | .letterNotRepeated letter, word => some (decide (word.count letter < 2))

/-- `BasePositionalConstraint.__init__` for `GreenConstraint`: index must lie
in `range(0, 5)`, the letter must be in `string.ascii_letters`, and the
stored letter is `letter.lower()`.  The letter here is the single character
the shell passes (`word[i]`). -/
def mkGreen (index : Int) (letter : Char) : Except WErr Constraint :=
  if index < 0 ∨ 5 ≤ index then .error (.indexOutOfBounds index)
  else if ¬ ascii_letters.contains letter then .error (.invalidLetter letter)
  else .ok (.green index.toNat letter.toLower)

/-- `BasePositionalConstraint.__init__` for `YellowConstraint`; same
validation as `mkGreen`. -/
def mkYellow (index : Int) (letter : Char) : Except WErr Constraint :=
  if index < 0 ∨ 5 ≤ index then .error (.indexOutOfBounds index)
  else if ¬ ascii_letters.contains letter then .error (.invalidLetter letter)
  else .ok (.yellow index.toNat letter.toLower)

/-- `BaseNonPositionalConstraint.__init__` for `NoLetterPresentConstraint`. -/
def mkNoLetterPresent (letter : Char) : Except WErr Constraint :=
  if ¬ ascii_letters.contains letter then .error (.invalidLetter letter)
  else .ok (.noLetterPresent letter.toLower)

/-- `BaseNonPositionalConstraint.__init__` for `LetterNotRepeatedConstraint`. -/
def mkLetterNotRepeated (letter : Char) : Except WErr Constraint :=
  if ¬ ascii_letters.contains letter then .error (.invalidLetter letter)
  else .ok (.letterNotRepeated letter.toLower)

/-- `BasePositionalConstraint.__init__` taken at an arbitrary Python string
argument for the letter (the constructor signature does not restrict it to a
single character): `letter not in string.ascii_letters` is Python substring
containment, and the stored letter is `letter.lower()`.  Returns the stored
`(index, letter)` pair. -/
def mkPositionalStr (index : Int) (letter : List Char) :
    Except WErr (Int × List Char) :=
  if index < 0 ∨ 5 ≤ index then .error (.indexOutOfBounds index)
  else if ¬ pyInStr letter ascii_letters then .error (.invalidLetterString letter)
  else .ok (index, letter.map Char.toLower)

/-- The test in `do_word`'s grey branch:
`c.letter == letter and (isinstance(c, GreenConstraint) or isinstance(c, YellowConstraint))`.
The stored letter of `c` (already lowercased) is compared with the raw
guessed letter. -/
def Constraint.isGreenOrYellowFor : Constraint → Char → Bool
  | .green _ l, letter => l == letter
  | .yellow _ l, letter => l == letter
  | .noLetterPresent _, _ => false
  | .letterNotRepeated _, _ => false

/-- The grey (`_`) branch of `do_word`: if any constraint already in the
history is a green or yellow constraint for the same letter, build a
`LetterNotRepeatedConstraint`, otherwise a `NoLetterPresentConstraint`. -/
def deriveGrey (constraints : List Constraint) (letter : Char) :
    Except WErr Constraint :=
  if constraints.any (fun c => c.isGreenOrYellowFor letter) then
    mkLetterNotRepeated letter
  else
    mkNoLetterPresent letter

/-- The body of `do_word`'s loop at position `i`: dispatch on the hint
character (`g`, `y`, `_`; anything else raises). -/
def deriveConstraint (constraints : List Constraint) (i : Nat)
    (letter hint : Char) : Except WErr Constraint :=
  if hint = 'g' then mkGreen i letter
  else if hint = 'y' then mkYellow i letter
  else if hint = '_' then deriveGrey constraints letter
  else .error (.invalidHintType hint i)

/-- The mutable session state of `WordleShell`: the current candidate list
`self.words` and the constraint history `self.constraints`. -/
structure ShellState where
  words : List (List Char)
  constraints : List Constraint
deriving DecidableEq, Repr

/-- `WordleShell.apply_new_constraint`: append the constraint to the history
and filter the candidate list by its match predicate. -/
def applyNewConstraint (s : ShellState) (c : Constraint) : ShellState :=
  { words := s.words.filter (fun w => c.matches w)
    constraints := s.constraints ++ [c] }

/-- The `for i in range(0, 5)` loop of `do_word`, with the remaining index
list explicit.  A validation error aborts the loop, returning the state as
mutated so far (in Python the exception propagates, leaving `self.words` and
`self.constraints` with the constraints of the earlier positions already
applied). -/
def doWordGo (word hints : List Char) : ShellState → List Nat → ShellState × Option WErr
  | s, [] => (s, none)
  | s, i :: rest =>
    match deriveConstraint s.constraints i (word.getD i ' ') (hints.getD i ' ') with
    | .error e => (s, some e)
    | .ok c => doWordGo word hints (applyNewConstraint s c) rest

/-- The constraints the loop `doWordGo` appends to the history (empty past
the point of a validation error). -/
def newCons (word hints : List Char) : ShellState → List Nat → List Constraint
  | _, [] => []
  | s, i :: rest =>
    match deriveConstraint s.constraints i (word.getD i ' ') (hints.getD i ' ') with
    | .error _ => []
    | .ok c => c :: newCons word hints (applyNewConstraint s c) rest

/-- `WordleShell.do_word` after the `arg.split()` parse: validate the two
lengths, then run the loop over positions 0..4. -/
def doWord (s : ShellState) (word hints : List Char) : ShellState × Option WErr :=
  if word.length ≠ 5 then (s, some .wordLengthMismatch)
  else if hints.length ≠ 5 then (s, some .hintsLengthMismatch)
  else doWordGo word hints s (List.range 5)

/-! ## Helper lemmas -/

theorem wordle_contains_iff (w : List Char) (l : Char) :
    w.contains l = true ↔ l ∈ w := by
  simp [List.contains, List.elem_iff]

theorem wordle_contains_false (w : List Char) (l : Char) :
    w.contains l = false ↔ l ∉ w := by
  rw [Bool.eq_false_iff]
  exact not_congr (wordle_contains_iff w l)

theorem mkNoLetterPresent_ok (letter : Char) (c : Constraint)
    (h : mkNoLetterPresent letter = .ok c) :
    ascii_letters.contains letter = true ∧ c = .noLetterPresent letter.toLower := by
  unfold mkNoLetterPresent at h
  split_ifs at h with hc
  cases h
  exact ⟨hc, rfl⟩

theorem mkLetterNotRepeated_ok (letter : Char) (c : Constraint)
    (h : mkLetterNotRepeated letter = .ok c) :
    ascii_letters.contains letter = true ∧ c = .letterNotRepeated letter.toLower := by
  unfold mkLetterNotRepeated at h
  split_ifs at h with hc
  cases h
  exact ⟨hc, rfl⟩

theorem mkGreen_ok (index : Int) (letter : Char) (c : Constraint)
    (h : mkGreen index letter = .ok c) :
    index.toNat < 5 ∧ ascii_letters.contains letter = true ∧
      c = .green index.toNat letter.toLower := by
  unfold mkGreen at h
  split_ifs at h with hi hc
  cases h
  exact ⟨by omega, hc, rfl⟩

theorem mkYellow_ok (index : Int) (letter : Char) (c : Constraint)
    (h : mkYellow index letter = .ok c) :
    index.toNat < 5 ∧ ascii_letters.contains letter = true ∧
      c = .yellow index.toNat letter.toLower := by
  unfold mkYellow at h
  split_ifs at h with hi hc
  cases h
  exact ⟨by omega, hc, rfl⟩

theorem doWordGo_cons (word hints : List Char) (s : ShellState) (i : Nat)
    (rest : List Nat) :
    doWordGo word hints s (i :: rest) =
      match deriveConstraint s.constraints i (word.getD i ' ') (hints.getD i ' ') with
      | .error e => (s, some e)
      | .ok c => doWordGo word hints (applyNewConstraint s c) rest := rfl

theorem newCons_cons (word hints : List Char) (s : ShellState) (i : Nat)
    (rest : List Nat) :
    newCons word hints s (i :: rest) =
      match deriveConstraint s.constraints i (word.getD i ' ') (hints.getD i ' ') with
      | .error _ => []
      | .ok c => c :: newCons word hints (applyNewConstraint s c) rest := rfl

/-- The state returned by the loop: the history is the input history with the
newly derived constraints appended, and the candidate list is the input list
filtered by the conjunction of all the newly derived constraints. -/
theorem doWordGo_spec (word hints : List Char) (l : List Nat) :
    ∀ t : ShellState,
      (doWordGo word hints t l).1.constraints
          = t.constraints ++ newCons word hints t l ∧
      (doWordGo word hints t l).1.words
          = t.words.filter (fun w => (newCons word hints t l).all fun c => c.matches w) := by
  induction l with
  | nil => intro t; simp [doWordGo, newCons]
  | cons i rest ih =>
    intro t
    cases hd : deriveConstraint t.constraints i (word.getD i ' ') (hints.getD i ' ') with
    | error e =>
      rw [doWordGo_cons, newCons_cons, hd]
      simp
    | ok c =>
      obtain ⟨h1, h2⟩ := ih (applyNewConstraint t c)
      rw [doWordGo_cons, newCons_cons, hd]
      constructor
      · rw [h1]
        simp [applyNewConstraint]
      · rw [h2]
        simp only [applyNewConstraint]
        rw [List.filter_filter]
        apply List.filter_congr
        intro w _
        simp [Bool.and_comm]

theorem doWordGo_words_mem (word hints : List Char) (l : List Nat)
    (t : ShellState) (w : List Char)
    (hw : w ∈ (doWordGo word hints t l).1.words) :
    w ∈ t.words ∧ ∀ c ∈ newCons word hints t l, c.matches w = true := by
  rw [(doWordGo_spec word hints l t).2, List.mem_filter] at hw
  exact ⟨hw.1, fun c hc => List.all_eq_true.mp hw.2 c hc⟩

/-! ## Claim theorems -/

/-- C3: for every dictionary (the `words` of a state) and every sequence of
constraints applied one at a time through `apply_new_constraint`, the
resulting candidate list equals the closed-form definition: the words of the
original dictionary that every constraint in the sequence matches. -/
theorem claimC3_narrow_eq_closed_form (s : ShellState) (C : List Constraint) :
    (C.foldl applyNewConstraint s).words
      = s.words.filter (fun w => C.all fun c => c.matches w) := by
  induction C generalizing s with
  | nil => simp
  | cons c C ih =>
    simp only [List.foldl_cons]
    rw [ih]
    simp only [applyNewConstraint]
    rw [List.filter_filter]
    apply List.filter_congr
    intro w _
    simp [Bool.and_comm]

/-- C4: a successful `do_word` call never enlarges the candidate list: the
candidate count is non-increasing. -/
theorem claimC4_count_nonincreasing (s : ShellState) (word hints : List Char)
    (s1 : ShellState) (h : doWord s word hints = (s1, none)) :
    s1.words.length ≤ s.words.length := by
  unfold doWord at h
  split_ifs at h with h1 h2
  · simp at h
  · simp at h
  · have hs := (doWordGo_spec word hints (List.range 5) s).2
    rw [h] at hs
    rw [hs]
    exact List.length_filter_le _ _

/-- Witness for C4 at a concrete state and guess. -/
theorem claimC4_witness :
    (ShellState.words
      ⟨["crane".toList], [Constraint.green 0 'c', Constraint.green 1 'r',
        Constraint.green 2 'a', Constraint.green 3 'n',
        Constraint.green 4 'e']⟩).length
      ≤ (ShellState.words ⟨["crane".toList, "slate".toList], []⟩).length :=
  claimC4_count_nonincreasing ⟨["crane".toList, "slate".toList], []⟩
    "crane".toList "ggggg".toList
    ⟨["crane".toList], [Constraint.green 0 'c', Constraint.green 1 'r',
      Constraint.green 2 'a', Constraint.green 3 'n', Constraint.green 4 'e']⟩
    (by decide)

/-- C6: a guess whose word length is not 5 (or whose feedback length is not
5) is rejected with the corresponding length-mismatch error, and the state —
candidate list and history — is returned unchanged. -/
theorem claimC6_length_mismatch (s : ShellState) (word hints : List Char) :
    (word.length ≠ 5 → doWord s word hints = (s, some .wordLengthMismatch)) ∧
    (word.length = 5 → hints.length ≠ 5 →
      doWord s word hints = (s, some .hintsLengthMismatch)) := by
  constructor
  · intro h
    simp [doWord, h]
  · intro h1 h2
    simp [doWord, h1, h2]

/-- Witness for C6: the spec's example, word `abcd` with feedback `g_yy_`. -/
theorem claimC6_witness :
    doWord ⟨["crane".toList, "slate".toList], []⟩ "abcd".toList "g_yy_".toList
      = (⟨["crane".toList, "slate".toList], []⟩, some .wordLengthMismatch) :=
  (claimC6_length_mismatch ⟨["crane".toList, "slate".toList], []⟩
    "abcd".toList "g_yy_".toList).1 (by decide)

/-- C8: a yellow (present-elsewhere) constraint matches a candidate word iff
the letter occurs somewhere in the word and the character at the stored
index differs from the letter. -/
theorem claimC8_yellow_semantics (i : Nat) (letter : Char) (w : List Char)
    (hw : w.length = 5) (hi : i < w.length) :
    (Constraint.yellow i letter).matches w = true ↔
      letter ∈ w ∧ w.get ⟨i, hi⟩ ≠ letter := by
  simp only [Constraint.matches, Bool.and_eq_true, bne_iff_ne, ne_eq]
  rw [List.getD_eq_getElem w ' ' hi, wordle_contains_iff]
  rw [List.get_eq_getElem]

/-- Witness for C8 at a concrete constraint and word. -/
theorem claimC8_witness :
    (Constraint.yellow 1 'a').matches "crane".toList = true ↔
      'a' ∈ "crane".toList ∧ "crane".toList.get ⟨1, by decide⟩ ≠ 'a' :=
  claimC8_yellow_semantics 1 'a' "crane".toList (by decide) (by decide)

/-- C10: the fully-absent grey constraint is stronger than the not-repeated
grey constraint for the same letter: any word the former matches, the latter
matches as well. -/
theorem claimC10_grey_weakening (letter : Char) (w : List Char)
    (h : (Constraint.noLetterPresent letter).matches w = true) :
    (Constraint.letterNotRepeated letter).matches w = true := by
  simp only [Constraint.matches, Bool.not_eq_true'] at h
  have hm : letter ∉ w := (wordle_contains_false w letter).mp h
  simp only [Constraint.matches, decide_eq_true_iff]
  have : w.count letter = 0 := List.count_eq_zero.mpr hm
  omega

/-- Witness for C10 at a concrete letter and word. -/
theorem claimC10_witness :
    (Constraint.letterNotRepeated 's').matches "crane".toList = true :=
  claimC10_grey_weakening 's' "crane".toList (by decide)

/-- C2: constructing the grey constraint for a (valid) letter against a
history: if the history holds a green or yellow constraint for that letter,
the result is the not-repeated constraint, matching a candidate iff the
letter's count in it is below 2; otherwise the result is the fully-absent
constraint, matching a candidate iff the (case-folded) letter does not occur
in it at all. -/
theorem claimC2_grey_disambiguation (hist : List Constraint) (letter : Char)
    (w : List Char) (hl : ascii_letters.contains letter = true) :
    (hist.any (fun c => c.isGreenOrYellowFor letter) = true →
      deriveGrey hist letter = .ok (.letterNotRepeated letter.toLower) ∧
      ((Constraint.letterNotRepeated letter.toLower).matches w = true ↔
        w.count letter.toLower < 2)) ∧
    (hist.any (fun c => c.isGreenOrYellowFor letter) = false →
      deriveGrey hist letter = .ok (.noLetterPresent letter.toLower) ∧
      ((Constraint.noLetterPresent letter.toLower).matches w = true ↔
        letter.toLower ∉ w)) := by
  have hl' : letter ∈ ascii_letters := (wordle_contains_iff _ _).mp hl
  constructor
  · intro hb
    refine ⟨by simp [deriveGrey, hb, mkLetterNotRepeated, hl'], ?_⟩
    simp [Constraint.matches]
  · intro hb
    refine ⟨by simp [deriveGrey, hb, mkNoLetterPresent, hl'], ?_⟩
    simp only [Constraint.matches, Bool.not_eq_true']
    exact wordle_contains_false w letter.toLower

/-- Witness for C2: after a green `s`, a grey report on `s` builds the
not-repeated constraint, and `sassy` (three times `s`) fails it. -/
theorem claimC2_witness :
    (deriveGrey [Constraint.green 0 's'] 's'
        = .ok (.letterNotRepeated 's'.toLower) ∧
      ((Constraint.letterNotRepeated 's'.toLower).matches "sassy".toList = true ↔
        "sassy".toList.count 's'.toLower < 2)) ∧
    (deriveGrey [] 's' = .ok (.noLetterPresent 's'.toLower) ∧
      ((Constraint.noLetterPresent 's'.toLower).matches "crane".toList = true ↔
        's'.toLower ∉ "crane".toList)) :=
  ⟨(claimC2_grey_disambiguation [Constraint.green 0 's'] 's' "sassy".toList
      (by decide)).1 (by decide),
   (claimC2_grey_disambiguation [] 's' "crane".toList (by decide)).2 (by decide)⟩

/-- C9: a positional constraint that was successfully constructed (so its
index passed the `range(0, 5)` bound check) never indexes outside a 5-letter
candidate: its checked match predicate returns a value (no IndexError), equal
to the total match predicate. -/
theorem claimC9_no_out_of_bounds (index : Int) (letter : Char) (c : Constraint)
    (w : List Char)
    (hc : mkGreen index letter = .ok c ∨ mkYellow index letter = .ok c)
    (hw : w.length = 5) :
    c.matchesChecked w = some (c.matches w) := by
  rcases hc with hc | hc
  · obtain ⟨hi, -, hceq⟩ := mkGreen_ok index letter c hc
    subst hceq
    have hlt : index.toNat < w.length := by omega
    simp [Constraint.matchesChecked, Constraint.matches,
      List.getElem?_eq_getElem hlt]
  · obtain ⟨hi, -, hceq⟩ := mkYellow_ok index letter c hc
    subst hceq
    have hlt : index.toNat < w.length := by omega
    by_cases hm : w.contains letter.toLower = true
    · simp [Constraint.matchesChecked, Constraint.matches, hm,
        (wordle_contains_iff w letter.toLower).mp hm,
        List.getElem?_eq_getElem hlt]
    · have hm' : w.contains letter.toLower = false := by simpa using hm
      have hnm : letter.toLower ∉ w := (wordle_contains_false w letter.toLower).mp hm'
      simp [Constraint.matchesChecked, Constraint.matches, hm', hnm,
        List.getElem?_eq_getElem hlt]

/-- Witness for C9 at a concrete constraint and word. -/
theorem claimC9_witness :
    (Constraint.yellow 2 'a').matchesChecked "slate".toList
      = some ((Constraint.yellow 2 'a').matches "slate".toList) :=
  claimC9_no_out_of_bounds 2 'a' (Constraint.yellow 2 'a') "slate".toList
    (Or.inr rfl) (by decide)

theorem pyInStr_singleton (c : Char) (hay : List Char) :
    pyInStr [c] hay = hay.contains c := by
  induction hay with
  | nil => rfl
  | cons a rest ih =>
    show ([c].isPrefixOf (a :: rest) || pyInStr [c] rest) = (a :: rest).contains c
    rw [ih]
    cases hb : c == a
    · have hba : (a == c) = false := by
        cases hab : a == c
        · rfl
        · have : a = c := eq_of_beq hab
          subst this
          simp at hb
      simp [List.isPrefixOf, hb, List.contains, List.elem, hba]
    · have : c = a := eq_of_beq hb
      subst this
      simp [List.isPrefixOf, List.contains, List.elem]

theorem ascii_letters_all_alpha :
    ascii_letters.all Char.isAlpha = true := by decide

theorem singleton_nonalpha_not_in_ascii (c : Char) (h : c.isAlpha = false) :
    pyInStr [c] ascii_letters = false := by
  rw [pyInStr_singleton]
  cases hc : ascii_letters.contains c
  · rfl
  · have hm : c ∈ ascii_letters := (wordle_contains_iff _ _).mp hc
    have := List.all_eq_true.mp ascii_letters_all_alpha c hm
    rw [this] at h
    cases h

/-- C7 counterexample: the two-character string `ab` is not a single
alphabetic character, yet `BasePositionalConstraint.__init__` accepts it —
Python's `letter not in string.ascii_letters` is substring containment, and
`ab` is a substring of the alphabet.  The claim that construction fails for
every non-single-character letter argument is therefore false. -/
theorem claimC7_counterexample :
    mkPositionalStr 0 ['a', 'b'] = .ok (0, ['a', 'b']) ∧
      ['a', 'b'].length ≠ 1 := by
  constructor
  · rfl
  · decide

/-- C7 amended: the index check rejects exactly the indices outside
`[0, 5)`; the letter check rejects exactly the strings that are not
contiguous substrings of `string.ascii_letters` — in particular every single
non-alphabetic character is rejected, but multi-character substrings of the
alphabet (and the empty string) are accepted; on success the stored letter is
the argument case-folded to lowercase. -/
theorem claimC7_amended (index : Int) (letter : List Char) :
    ((index < 0 ∨ 5 ≤ index) →
      mkPositionalStr index letter = .error (.indexOutOfBounds index)) ∧
    (¬ (index < 0 ∨ 5 ≤ index) → pyInStr letter ascii_letters = false →
      mkPositionalStr index letter = .error (.invalidLetterString letter)) ∧
    (¬ (index < 0 ∨ 5 ≤ index) → pyInStr letter ascii_letters = true →
      mkPositionalStr index letter = .ok (index, letter.map Char.toLower)) ∧
    (∀ c : Char, c.isAlpha = false → pyInStr [c] ascii_letters = false) := by
  refine ⟨?_, ?_, ?_, fun c h => singleton_nonalpha_not_in_ascii c h⟩
  · intro h
    simp [mkPositionalStr, h]
  · intro h1 h2
    simp [mkPositionalStr, h1, h2]
  · intro h1 h2
    simp [mkPositionalStr, h1, h2]

/-- Witness for C7 amended, covering each conjunct at a concrete input. -/
theorem claimC7_witness :
    mkPositionalStr (-1) ['a'] = .error (.indexOutOfBounds (-1)) ∧
    mkPositionalStr 0 ['!'] = .error (.invalidLetterString ['!']) ∧
    mkPositionalStr 0 ['A'] = .ok (0, ['a']) ∧
    pyInStr ['!'] ascii_letters = false :=
  ⟨(claimC7_amended (-1) ['a']).1 (Or.inl (by decide)),
   (claimC7_amended 0 ['!']).2.1 (by decide) (by decide),
   (claimC7_amended 0 ['A']).2.2.1 (by decide) (by decide),
   (claimC7_amended 0 []).2.2.2 '!' (by decide)⟩

/-- Rerunning the guess loop from a state whose history contains every
constraint of a completed first run, and whose candidate words satisfy every
constraint the first run appended, succeeds and filters out nothing.  The
grey disambiguation can only weaken across the reruns: the `any` test over a
larger history can only flip from fully-absent to not-repeated, and a word
with no occurrence of a letter certainly has fewer than two. -/
theorem doWordGo_idem (word hints : List Char) (l : List Nat) :
    ∀ t s : ShellState,
      (doWordGo word hints t l).2 = none →
      (∀ c ∈ (doWordGo word hints t l).1.constraints, c ∈ s.constraints) →
      (∀ w ∈ s.words, ∀ c ∈ newCons word hints t l, c.matches w = true) →
      (doWordGo word hints s l).2 = none ∧
        (doWordGo word hints s l).1.words = s.words := by
  induction l with
  | nil => exact fun t s _ _ _ => ⟨rfl, rfl⟩
  | cons i rest ih =>
    intro t s h1 h2 h3
    cases hd : deriveConstraint t.constraints i (word.getD i ' ') (hints.getD i ' ') with
    | error e =>
      rw [doWordGo_cons, hd] at h1
      simp at h1
    | ok c1 =>
      rw [doWordGo_cons, hd] at h1 h2
      rw [newCons_cons, hd] at h3
      dsimp only at h1 h2 h3
      have hmem_final : ∀ c, c ∈ t.constraints ++ [c1] → c ∈ s.constraints := by
        intro c hc
        apply h2
        rw [(doWordGo_spec word hints rest (applyNewConstraint t c1)).1]
        apply List.mem_append_left
        simpa [applyNewConstraint] using hc
      have htsub : ∀ c ∈ t.constraints, c ∈ s.constraints :=
        fun c hc => hmem_final c (List.mem_append_left _ hc)
      have hstep : ∃ c2,
          deriveConstraint s.constraints i (word.getD i ' ') (hints.getD i ' ')
            = .ok c2 ∧ ∀ w ∈ s.words, c2.matches w = true := by
        unfold deriveConstraint at hd ⊢
        by_cases hg : (hints.getD i ' ') = 'g'
        · rw [if_pos hg] at hd ⊢
          exact ⟨c1, hd, fun w hw => h3 w hw c1 (List.mem_cons_self _ _)⟩
        · rw [if_neg hg] at hd ⊢
          by_cases hy : (hints.getD i ' ') = 'y'
          · rw [if_pos hy] at hd ⊢
            exact ⟨c1, hd, fun w hw => h3 w hw c1 (List.mem_cons_self _ _)⟩
          · rw [if_neg hy] at hd ⊢
            by_cases hu : (hints.getD i ' ') = '_'
            · rw [if_pos hu] at hd ⊢
              unfold deriveGrey at hd ⊢
              cases hb : t.constraints.any
                  (fun c => c.isGreenOrYellowFor (word.getD i ' ')) with
              | true =>
                rw [if_pos hb] at hd
                obtain ⟨hval, hc1⟩ := mkLetterNotRepeated_ok _ _ hd
                subst hc1
                have hb2 : s.constraints.any
                    (fun c => c.isGreenOrYellowFor (word.getD i ' ')) = true := by
                  obtain ⟨ct, hct, hpt⟩ := List.any_eq_true.mp hb
                  exact List.any_eq_true.mpr ⟨ct, htsub ct hct, hpt⟩
                refine ⟨_, ?_, fun w hw => h3 w hw _ (List.mem_cons_self _ _)⟩
                rw [if_pos hb2]
                exact hd
              | false =>
                rw [if_neg (by rw [hb]; exact Bool.false_ne_true)] at hd
                obtain ⟨hval, hc1⟩ := mkNoLetterPresent_ok _ _ hd
                subst hc1
                cases hb2 : s.constraints.any
                    (fun c => c.isGreenOrYellowFor (word.getD i ' ')) with
                | false =>
                  refine ⟨_, ?_, fun w hw => h3 w hw _ (List.mem_cons_self _ _)⟩
                  rw [if_neg (by simp [hb2])]
                  exact hd
                | true =>
                  refine ⟨.letterNotRepeated (word.getD i ' ').toLower, ?_, ?_⟩
                  · rw [if_pos rfl]
                    unfold mkLetterNotRepeated
                    rw [if_neg (not_not_intro hval)]
                  · intro w hw
                    have hnl := h3 w hw _ (List.mem_cons_self _ _)
                    simp only [Constraint.matches, Bool.not_eq_true'] at hnl
                    have hm : (word.getD i ' ').toLower ∉ w :=
                      (wordle_contains_false _ _).mp hnl
                    simp only [Constraint.matches, decide_eq_true_iff]
                    have hz : w.count ((word.getD i ' ').toLower) = 0 :=
                      List.count_eq_zero.mpr hm
                    omega
            · rw [if_neg hu] at hd
              simp at hd
      obtain ⟨c2, hd2, hsat⟩ := hstep
      rw [doWordGo_cons, hd2]
      have hwords : (applyNewConstraint s c2).words = s.words := by
        simp only [applyNewConstraint]
        exact List.filter_eq_self.mpr hsat
      have h2' : ∀ c ∈ (doWordGo word hints (applyNewConstraint t c1) rest).1.constraints,
          c ∈ (applyNewConstraint s c2).constraints := by
        intro c hc
        have hcs := h2 c hc
        simp only [applyNewConstraint, List.mem_append]
        exact Or.inl hcs
      have h3' : ∀ w ∈ (applyNewConstraint s c2).words,
          ∀ c ∈ newCons word hints (applyNewConstraint t c1) rest,
            c.matches w = true := by
        intro w hw c hc
        rw [hwords] at hw
        exact h3 w hw c (List.mem_cons_of_mem _ hc)
      obtain ⟨hres2, hresw⟩ :=
        ih (applyNewConstraint t c1) (applyNewConstraint s c2) h1 h2' h3'
      exact ⟨hres2, by rw [hresw, hwords]⟩

/-- C5: applying the same valid guess/feedback pair a second time succeeds
and leaves the candidate set exactly as after the first application (the
history grows, but no further word is filtered out). -/
theorem claimC5_idempotent (s s1 : ShellState) (word hints : List Char)
    (h : doWord s word hints = (s1, none)) :
    (doWord s1 word hints).2 = none ∧
      (doWord s1 word hints).1.words = s1.words := by
  unfold doWord at h ⊢
  split_ifs at h ⊢ with h1 h2
  · simp at h
  · simp at h
  · have hp1 : (doWordGo word hints s (List.range 5)).2 = none := by rw [h]
    have hp2 : ∀ c ∈ (doWordGo word hints s (List.range 5)).1.constraints,
        c ∈ s1.constraints := by
      rw [h]
      exact fun c hc => hc
    have hp3 : ∀ w ∈ s1.words, ∀ c ∈ newCons word hints s (List.range 5),
        c.matches w = true := by
      intro w hw c hc
      have hmem := doWordGo_words_mem word hints (List.range 5) s w
        (by rw [h]; exact hw)
      exact hmem.2 c hc
    exact doWordGo_idem word hints (List.range 5) s s1 hp1 hp2 hp3

/-- Witness for C5 at a concrete session: the state reached by a first
successful application of guess `crane` / feedback `ggggg`. -/
theorem claimC5_witness :
    (doWord ⟨["crane".toList],
        [Constraint.green 0 'c', Constraint.green 1 'r', Constraint.green 2 'a',
         Constraint.green 3 'n', Constraint.green 4 'e']⟩
      "crane".toList "ggggg".toList).2 = none ∧
    (doWord ⟨["crane".toList],
        [Constraint.green 0 'c', Constraint.green 1 'r', Constraint.green 2 'a',
         Constraint.green 3 'n', Constraint.green 4 'e']⟩
      "crane".toList "ggggg".toList).1.words = ["crane".toList] :=
  claimC5_idempotent ⟨["crane".toList, "slate".toList], []⟩
    ⟨["crane".toList],
      [Constraint.green 0 'c', Constraint.green 1 'r', Constraint.green 2 'a',
       Constraint.green 3 'n', Constraint.green 4 'e']⟩
    "crane".toList "ggggg".toList (by decide)

/-- C1 counterexample: with dictionary `crane, slate` and empty history, the
guess `slate` with feedback `gx___` (invalid symbol `x` at position 1) fails,
yet the state after the failed call differs from the state before it: the
green constraint derived from position 0 was already applied, narrowing the
candidate list.  Validation of the feedback symbols is NOT completed before
constraints start being applied. -/
theorem claimC1_counterexample :
    (doWord ⟨["crane".toList, "slate".toList], []⟩
        "slate".toList "gx___".toList).2.isSome = true ∧
    (doWord ⟨["crane".toList, "slate".toList], []⟩
        "slate".toList "gx___".toList).1
      ≠ ShellState.mk ["crane".toList, "slate".toList] [] := by decide

/-- C1 amended: wrong-length word/feedback pairs are rejected before any
constraint is derived, leaving the state exactly unchanged; for any other
failure (invalid feedback symbol or non-alphabetic letter at position `i`)
the constraints of the positions before `i` are already committed: the state
after any `do_word` call is always the original state narrowed by exactly
the prefix of constraints that was applied. -/
theorem claimC1_amended (s : ShellState) (word hints : List Char) :
    ((word.length ≠ 5 ∨ hints.length ≠ 5) → (doWord s word hints).1 = s) ∧
    (∃ k : List Constraint,
      (doWord s word hints).1.constraints = s.constraints ++ k ∧
      (doWord s word hints).1.words
        = s.words.filter (fun w => k.all fun c => c.matches w)) := by
  constructor
  · intro h
    unfold doWord
    rcases h with h | h
    · rw [if_pos h]
    · by_cases h1 : word.length ≠ 5
      · rw [if_pos h1]
      · rw [if_neg h1, if_pos h]
  · unfold doWord
    split_ifs with h1 h2
    · exact ⟨[], by simp⟩
    · exact ⟨[], by simp⟩
    · exact ⟨newCons word hints s (List.range 5),
        (doWordGo_spec word hints (List.range 5) s).1,
        (doWordGo_spec word hints (List.range 5) s).2⟩

/-- Witness for C1 amended: a wrong-length word leaves the state unchanged,
and the failed `gx___` call commits exactly the prefix constraints. -/
theorem claimC1_witness :
    ((doWord ⟨["slate".toList], []⟩ "abc".toList "ggggg".toList).1
        = ⟨["slate".toList], []⟩) ∧
    (∃ k : List Constraint,
      (doWord ⟨["slate".toList], []⟩ "slate".toList "gx___".toList).1.constraints
          = ([] : List Constraint) ++ k ∧
      (doWord ⟨["slate".toList], []⟩ "slate".toList "gx___".toList).1.words
          = ["slate".toList].filter (fun w => k.all fun c => c.matches w)) :=
  ⟨(claimC1_amended ⟨["slate".toList], []⟩ "abc".toList "ggggg".toList).1
      (Or.inl (by decide)),
   (claimC1_amended ⟨["slate".toList], []⟩ "slate".toList "gx___".toList).2⟩
